import Mathlib

/-!
# Verification of the Seihai thought-organizer core

A shallow embedding of the state-and-persistence model of the Seihai PWA
(`src/App.tsx` and `src/model/thought.ts`): text segmentation, the action
selector, the item store (add / reorder / delete), the single-slot undo
buffer, and the localStorage persistence layer, together with proofs of the
testable properties stated in the specification.

Strings are modelled by Lean `String` (a list of Unicode characters), and
JavaScript string primitives (`trim`, `split(/\r?\n/)`, regex substring
tests) are embedded as executable functions on `List Char`.  The JSON
values produced by `JSON.parse` / consumed by `JSON.stringify` are modelled
by an explicit `JValue` tree; `localStorage` is modelled as a record
holding the two keys the application ever mentions.
-/

namespace Seihai

/-! ## Character-level utilities (JS string primitives) -/

/-- Whitespace characters stripped by `String.prototype.trim` (the set
relevant to this code base: space, tab, carriage return, newline). -/
def isWs (c : Char) : Bool := c == ' ' || c == '\t' || c == '\r' || c == '\n'

/-- Model of JS `trim` on a character list: drop leading and trailing whitespace. -/
def trimChars (l : List Char) : List Char :=
  ((l.dropWhile isWs).reverse.dropWhile isWs).reverse

/-- JS `s.trim()`. -/
def trimStr (s : String) : String := String.mk (trimChars s.data)

/-- JS `s.split(/\r?\n/)`: split on `\n`, optionally preceded by `\r`.
The accumulator holds the current line in reverse. -/
def splitLinesAux : List Char → List Char → List (List Char)
  | [], acc => [acc.reverse]
  | '\r' :: '\n' :: rest, acc => acc.reverse :: splitLinesAux rest []
  | '\n' :: rest, acc => acc.reverse :: splitLinesAux rest []
  | c :: rest, acc => splitLinesAux rest (c :: acc)

/-- JS `s.split(/\r?\n/)` on strings. -/
def splitLines (s : String) : List String :=
  (splitLinesAux s.data []).map String.mk

/-- Does `needle` occur at the start of `hay`? (JS `String.startsWith`,
used to implement the substring test of an unanchored regex). -/
def prefixAt : List Char → List Char → Bool
  | [], _ => true
  | _ :: _, [] => false
  | a :: as, b :: bs => a == b && prefixAt as bs

/-- Does `needle` occur contiguously anywhere in `hay`?  This is what an
unanchored literal regex such as `/TODO/` tests. -/
def hasSub (needle : List Char) : List Char → Bool
  | [] => needle.isEmpty
  | c :: rest => prefixAt needle (c :: rest) || hasSub needle rest

/-! ## Text segmentation (`src/model/thought.ts` and `App.tsx`)

`splitThoughts` (model/thought.ts) splits, trims, drops empty lines and
then *deduplicates*, keeping first occurrences.  The draft-commit path
`addThoughtsFromDraft` (App.tsx) inlines the same split/trim/filter
pipeline but performs **no** deduplication. -/

/-- The shared pipeline
`raw.split(/\r?\n/).map(s => s.trim()).filter(s => s.length > 0)`. -/
def segmentPipeline (raw : String) : List String :=
  ((splitLines raw).map trimStr).filter (fun s => s.length > 0)

/-- The `seen`-set loop of `splitThoughts`: keep the first occurrence of
each line, drop later duplicates. -/
def dedupAux (seen : List String) : List String → List String
  | [] => []
  | x :: xs => if seen.contains x then dedupAux seen xs
               else x :: dedupAux (x :: seen) xs

/-- Function `splitThoughts` from `src/model/thought.ts`: split, trim, drop empties,
then deduplicate via a `Set` keeping first occurrences. -/
def splitThoughts (raw : String) : List String :=
  dedupAux [] (segmentPipeline raw)

/-- The segmentation inlined in `addThoughtsFromDraft` (App.tsx): the
trimmed draft is split, each piece trimmed, empty pieces dropped
(`filter(Boolean)`); duplicates are retained. -/
def draftParts (raw : String) : List String := segmentPipeline raw

/-- Modelled from the spec (§4.1 / §8): the non-empty trimmed lines
of the input, i.e. split into lines, trim each, keep the non-empty ones —
stated with the non-empty predicate as the spec words it. -/
def specSegment (raw : String) : List String :=
  ((splitLines raw).map trimStr).filter (fun s => s ≠ "")

/-! ## Action selector (`generateAction`, `src/model/thought.ts`) -/

/-- The test `/TODO|やる|する/.test(t)`: `t` contains one of the three
literal substrings. -/
def isActionable (t : String) : Bool :=
  hasSub "TODO".data t.data || hasSub "やる".data t.data || hasSub "する".data t.data

/-- The test `/[?？]/.test(t)`: `t` contains an ASCII or full-width
question mark. -/
def hasQMark (t : String) : Bool :=
  t.data.contains '?' || t.data.contains '？'

/-- Function `generateAction` from `src/model/thought.ts`: first actionable
thought, else first thought with a question mark, else `thoughts[0] ?? ""`. -/
def generateAction (thoughts : List String) : String :=
  match thoughts.find? isActionable with
  | some t => t
  | none =>
    match thoughts.find? hasQMark with
    | some t => t
    | none => thoughts.headD ""

/-- Modelled from the spec (§4.2): the tie-break priority expressed as
"the first element of the sub-sequence of actionable thoughts, else the
first of those with a question mark, else the thought at index 0, else
the empty string". -/
def selectActionSpec (thoughts : List String) : String :=
  (thoughts.filter isActionable).headD
    ((thoughts.filter hasQMark).headD (thoughts.headD ""))

/-! ## Data model -/

/-- Model of the source type ThoughtItem: an id string and a text string
(App.tsx). -/
structure ThoughtItem where
  id : String
  text : String
deriving DecidableEq, Repr

/-- The in-memory state owned by the store: `{ draft, items }`. -/
structure AppState where
  draft : String
  items : List ThoughtItem
deriving DecidableEq, Repr

/-! ## JSON values and persistence (`loadInitialState`, the save effect,
`resetAll` — App.tsx)

`JValue` models the value trees produced by `JSON.parse` and consumed by
`JSON.stringify`; serialization to the byte string is the faithful
round-trip of the platform and is not re-modelled.  `Store` models
`localStorage` restricted to the two keys the application ever names:
the current key `"seihai_v2_state"` (held as its parse result — `none`
covers both "key absent" and "JSON.parse threw", branches on which the
source returns the same empty state) and the legacy key
`"seihai_v1_rawText"` (a raw string; it only appears commented out in
the source and is never read or written). -/

inductive JValue where
  | jnull : JValue
  | jbool : Bool → JValue
  | jnum : Int → JValue
  | jstr : String → JValue
  | jarr : List JValue → JValue
  | jobj : List (String × JValue) → JValue

/-- First-match field lookup in the field list of an object (JS object keys are
unique, so first match is the only match). -/
def lookupField : List (String × JValue) → String → Option JValue
  | [], _ => none
  | (k, v) :: rest, key => if k == key then some v else lookupField rest key

/-- JS property access `j.key`: a field of an object, `undefined` (here
`none`) on anything else. -/
def JValue.getField : JValue → String → Option JValue
  | .jobj fs, key => lookupField fs key
  | _, _ => none

/-- The shape filter of `loadInitialState`: the item is an object with
string-typed `id` and `text` fields. -/
def isValidItem (j : JValue) : Bool :=
  match j with
  | .jobj fs =>
    (match lookupField fs "id" with | some (.jstr _) => true | _ => false) &&
    (match lookupField fs "text" with | some (.jstr _) => true | _ => false)
  | _ => false

/-- Read the fields of a (valid) item; defaults are never reached on items that
passed `isValidItem`. -/
def extractItem (j : JValue) : ThoughtItem :=
  match j with
  | .jobj fs =>
    { id := match lookupField fs "id" with | some (.jstr s) => s | _ => ""
      text := match lookupField fs "text" with | some (.jstr s) => s | _ => "" }
  | _ => ⟨"", ""⟩

/-- One-step decoder used to characterize the filter: `some` exactly on
shape-valid items, returning the extracted item. -/
def decodeItem (j : JValue) : Option ThoughtItem :=
  match j with
  | .jobj fs =>
    (match lookupField fs "id", lookupField fs "text" with
     | some (.jstr i), some (.jstr t) => some ⟨i, t⟩
     | _, _ => none)
  | _ => none

/-- The body of `loadInitialState` after a successful `JSON.parse`:
`draft` must be a string (else `""`), `items` must be an array (else `[]`)
and is filtered item-wise by shape. -/
def loadParsed (j : JValue) : AppState :=
  { draft := match j.getField "draft" with | some (.jstr s) => s | _ => ""
    items := match j.getField "items" with
      | some (.jarr xs) => (xs.filter isValidItem).map extractItem
      | _ => [] }

/-- Model of `localStorage`, restricted to the two keys the source names. -/
structure Store where
  current : Option JValue
  legacy : Option String

/-- Function `loadInitialState` (App.tsx): read the current key; if absent (or the
blob failed to parse — the `catch` branch) return the empty state,
otherwise sanitize the parsed value.  The legacy key is never consulted. -/
def loadInitialState (st : Store) : AppState :=
  match st.current with
  | none => ⟨"", []⟩
  | some j => loadParsed j

/-- Encoding of one item by `JSON.stringify`. -/
def encodeItem (it : ThoughtItem) : JValue :=
  .jobj [("id", .jstr it.id), ("text", .jstr it.text)]

/-- Encoding of the whole state by `JSON.stringify`. -/
def encodeState (s : AppState) : JValue :=
  .jobj [("draft", .jstr s.draft), ("items", .jarr (s.items.map encodeItem))]

/-- The debounced save effect (App.tsx):
`localStorage.setItem(STORAGE_KEY, JSON.stringify({ draft, items }))`. -/
def saveState (s : AppState) (st : Store) : Store :=
  { st with current := some (encodeState s) }

/-- Function `resetAll` (App.tsx), past the confirmation gate: clear draft and
items, and `localStorage.removeItem(STORAGE_KEY)` — only the current key
is removed. -/
def resetAll (st : Store) : AppState × Store :=
  (⟨"", []⟩, { st with current := none })

/-! ## Undo buffer and delete (`onDelete` / `undoDelete`, App.tsx) -/

/-- Items plus the single-slot undo buffer
(`undo : { item, index } | null`). -/
structure UndoState where
  items : List ThoughtItem
  undo : Option (ThoughtItem × Nat)
deriving DecidableEq, Repr

/-- The `findIndex`/`splice(index, 1)` pair of `onDelete`: locate the
first item with the given id and remove it, returning the removed item,
its index and the remaining list (`none` when the id is absent). -/
def spliceOutById (key : String) : List ThoughtItem → Option (ThoughtItem × Nat × List ThoughtItem)
  | [] => none
  | x :: xs =>
    if x.id == key then some (x, 0, xs)
    else
      match spliceOutById key xs with
      | none => none
      | some (it, k, ys) => some (it, k + 1, x :: ys)

/-- Function `onDelete` (App.tsx): if the id is present, remove that item and arm
the undo buffer with the removed item and its pre-removal index; if
absent (`index < 0`), leave the state unchanged. -/
def onDelete (key : String) (st : UndoState) : UndoState :=
  match spliceOutById key st.items with
  | none => st
  | some (it, k, ys) => ⟨ys, some (it, k)⟩

/-- JS `array.splice(n, 0, a)` for in-range `n` (inserting past the end
appends, as `splice` clamps its start index). -/
def insertAt {α : Type} : Nat → α → List α → List α
  | 0, a, l => a :: l
  | _ + 1, a, [] => [a]
  | n + 1, a, x :: xs => x :: insertAt n a xs

/-- Function `undoDelete` (App.tsx): if the buffer is armed, reinsert the buffered
item at `Math.min(index, next.length)` and clear the buffer; a no-op on
an empty buffer. -/
def undoDelete (st : UndoState) : UndoState :=
  match st.undo with
  | none => st
  | some (it, k) => ⟨insertAt (min k st.items.length) it st.items, none⟩

/-! ## Item store operations (`addThoughtsFromDraft`, `onDragEnd`,
App.tsx)

`makeId` draws a fresh random UUID per call; it is modelled as a supply
`gen : Nat → String` consumed sequentially via a counter, with the
"generator never repeats" assumption stated as injectivity of `gen`. -/

/-- Items plus the id-supply counter. -/
structure ItemsState where
  items : List ThoughtItem
  next : Nat

/-- Model of the source line mapping parts to items with fresh ids
(one `makeId()` call per part,
drawn sequentially from the supply starting at `n`. -/
def freshItems (gen : Nat → String) : Nat → List String → List ThoughtItem
  | _, [] => []
  | n, t :: ts => ⟨gen n, t⟩ :: freshItems gen (n + 1) ts

/-- Function `addThoughtsFromDraft` (App.tsx), the store effect: trim the draft;
if empty, do nothing; otherwise segment it and append the freshly minted
items at the end. -/
def commitDraft (gen : Nat → String) (draft : String) (st : ItemsState) : ItemsState :=
  let v := trimStr draft
  if v.length = 0 then st
  else
    let parts := draftParts v
    ⟨st.items ++ freshItems gen st.next parts, st.next + parts.length⟩

/-- JS `array.splice(n, 1)` for in-range `n`: the removed element and the
remaining list (`none` removed when `n` is out of range). -/
def removeAt {α : Type} : Nat → List α → Option α × List α
  | _, [] => (none, [])
  | 0, x :: xs => (some x, xs)
  | n + 1, x :: xs =>
    let p := removeAt n xs
    (p.1, x :: p.2)

/-- dnd-kit `arrayMove`: remove the element at `src` and reinsert it at
`dst` (with the clamping of `splice`).  If `src` is out of range the list is
returned unchanged (`onDragEnd` only passes indices of ids actually in
the collection). -/
def arrayMove {α : Type} (l : List α) (src dst : Nat) : List α :=
  match removeAt src l with
  | (none, _) => l
  | (some x, ys) => insertAt dst x ys

/-- Function `onDragEnd` (App.tsx): no-op when the dragged and hovered ids
coincide, otherwise `arrayMove` between their indices. -/
def onDragEnd (activeId overId : String) (l : List ThoughtItem) : List ThoughtItem :=
  if activeId == overId then l
  else arrayMove l (l.findIdx (fun x => x.id == activeId))
                   (l.findIdx (fun x => x.id == overId))

/-- The operations quantified over by the uniqueness invariant. -/
inductive Op where
  | add : String → Op
  | reorder : String → String → Op
  | delete : String → Op

/-- One operation on the store (delete drops the undo bookkeeping, which
does not touch the collection). -/
def applyOp (gen : Nat → String) (st : ItemsState) : Op → ItemsState
  | .add draft => commitDraft gen draft st
  | .reorder a b => { st with items := onDragEnd a b st.items }
  | .delete key =>
    match spliceOutById key st.items with
    | none => st
    | some (_, _, ys) => { st with items := ys }

/-- Run a sequence of operations. -/
def runOps (gen : Nat → String) (st : ItemsState) : List Op → ItemsState
  | [] => st
  | op :: ops => runOps gen (applyOp gen st op) ops

/-- An injective id supply used to witness the uniqueness theorem. -/
def genA (n : Nat) : String := String.mk (List.replicate n 'a')

/-- A stored blob whose two items both pass shape validation but share
the id `"x"`. -/
def dupBlob : JValue :=
  .jobj [("draft", .jstr ""),
         ("items", .jarr [.jobj [("id", .jstr "x"), ("text", .jstr "a")],
                          .jobj [("id", .jstr "x"), ("text", .jstr "b")]])]

/-! ## Helper lemmas -/

/-- The function `find?` returns the head of the filtered list: "first match wins,
scanning in collection order". -/
lemma find?_eq_filter_head? {α : Type} (p : α → Bool) :
    ∀ l : List α, l.find? p = (l.filter p).head? := by
  intro l
  induction l with
  | nil => rfl
  | cons x xs ih =>
    cases h : p x with
    | true => rw [List.find?_cons_of_pos _ h, List.filter_cons_of_pos (by simp [h])]; rfl
    | false => rw [List.find?_cons_of_neg _ (by simp [h]), List.filter_cons_of_neg (by simp [h])]; exact ih

/-- The head of a `dropWhile p` result never satisfies `p`. -/
lemma dropWhile_head_false {α : Type} (p : α → Bool) :
    ∀ (l : List α) (c : α) (cs : List α), List.dropWhile p l = c :: cs → p c = false := by
  intro l
  induction l with
  | nil => intro c cs h; simp at h
  | cons x xs ih =>
    intro c cs h
    cases hx : p x with
    | true => rw [List.dropWhile_cons_of_pos hx] at h; exact ih c cs h
    | false =>
      rw [List.dropWhile_cons_of_neg (by simp [hx])] at h
      cases h
      exact hx

/-- A nonempty trimmed string contains a non-whitespace character
(namely its last one). -/
lemma trimChars_has_nonWs (l : List Char) (h : trimChars l ≠ []) :
    ∃ c ∈ trimChars l, isWs c = false := by
  unfold trimChars at *
  rcases hd : ((l.dropWhile isWs).reverse.dropWhile isWs) with _ | ⟨c, cs⟩
  · rw [hd] at h; simp at h
  · refine ⟨c, ?_, dropWhile_head_false isWs _ c cs hd⟩
    simp

/-- The two "non-empty" filters agree: `s.length > 0` iff `s ≠ ""`. -/
lemma length_pos_bool (s : String) :
    (decide (s.length > 0)) = (decide (s ≠ "")) := by
  rcases s with ⟨l⟩
  cases l with
  | nil => rfl
  | cons c cs =>
    have h1 : (String.mk (c :: cs)).length > 0 := by simp [String.length]
    have h2 : String.mk (c :: cs) ≠ "" := by
      intro he
      exact List.noConfusion (congrArg String.data he)
    simp [h1, h2]

end Seihai

namespace Seihai

/-! ## C2: action-selector priority -/

/-- C2: `generateAction` scans in collection order with first match
winning: the first actionable thought (containing `TODO`, `やる` or
`する`); otherwise the first thought containing `?` or `？`; otherwise
the thought at index 0; and the empty string on the empty sequence
(`selectActionSpec` states that priority as the spec words it). -/
theorem generateAction_priority (ts : List String) :
    generateAction ts = selectActionSpec ts := by
  unfold generateAction selectActionSpec
  rw [find?_eq_filter_head?, find?_eq_filter_head?]
  rcases hA : ts.filter isActionable with _ | ⟨a, as⟩ <;>
    rcases hQ : ts.filter hasQMark with _ | ⟨q, qs⟩ <;>
      simp [List.headD]

/-! ## C3: the first action-selection example of the spec -/

/-- C3 counterexample: on `["買い物に行く", "これは何？", "メモ"]` the
selector does not return `"買い物に行く"` (no thought matches the
actionable pattern, so the question-mark rule fires first). -/
theorem generateAction_example_ne :
    generateAction ["買い物に行く", "これは何？", "メモ"] ≠ "買い物に行く" := by
  decide

/-- C3 amended: on `["買い物に行く", "これは何？", "メモ"]` the selector
returns `"これは何？"`, the first thought containing a question mark. -/
theorem generateAction_example :
    generateAction ["買い物に行く", "これは何？", "メモ"] = "これは何？" := by
  decide

/-! ## C4: segmentation -/

/-- C4 counterexample: the non-empty trimmed lines of `"a\na"` are
`["a", "a"]`, but `splitThoughts` (the named segmentation
function of the repository) collapses the duplicate: multiplicity is not preserved. -/
theorem splitThoughts_collapses_duplicates :
    segmentPipeline "a\na" = ["a", "a"] ∧ splitThoughts "a\na" = ["a"] ∧
      splitThoughts "a\na" ≠ segmentPipeline "a\na" := by
  refine ⟨by decide, by decide, by decide⟩

/-- C4 amended: the segmentation actually applied when committing a draft
(`addThoughtsFromDraft`) yields no empty or whitespace-only strings, and
equals the non-empty trimmed lines of the input as the spec words it — order and
multiplicity preserved, duplicates retained; only the exported
`splitThoughts` helper (unused by the application) deduplicates. -/
theorem draftParts_preserves_lines :
    (∀ (raw s : String), s ∈ draftParts raw →
       s ≠ "" ∧ ∃ c ∈ s.data, isWs c = false) ∧
    (∀ raw : String, draftParts raw = specSegment raw) := by
  constructor
  · intro raw s hs
    unfold draftParts segmentPipeline at hs
    rw [List.mem_filter] at hs
    obtain ⟨hmem, hlen⟩ := hs
    rw [List.mem_map] at hmem
    obtain ⟨t, _, ht⟩ := hmem
    have hne : s ≠ "" := by
      intro he
      rw [he] at hlen
      simp at hlen
    refine ⟨hne, ?_⟩
    have hdata : s.data = trimChars t.data := by rw [← ht]; rfl
    have hnil : trimChars t.data ≠ [] := by
      intro hz
      have hsd : s.data = [] := hdata.trans hz
      apply hne
      rcases s with ⟨ls⟩
      have hls : ls = [] := hsd
      rw [hls]
    rw [hdata]
    exact trimChars_has_nonWs t.data hnil
  · intro raw
    unfold draftParts segmentPipeline specSegment
    apply List.filter_congr
    intro s _
    exact length_pos_bool s

/-- C4 amended, witness: a concrete run of the draft segmentation. -/
theorem draftParts_preserves_lines_witness :
    ("a" ∈ draftParts " a \nb" ∧
      ("a" ≠ "" ∧ ∃ c ∈ "a".data, isWs c = false)) ∧
    draftParts " a \nb" = specSegment " a \nb" := by
  refine ⟨⟨by decide, draftParts_preserves_lines.1 " a \nb" "a" (by decide)⟩,
    draftParts_preserves_lines.2 " a \nb"⟩

/-! ## C5: delete / undo -/

/-- Reinserting a spliced-out item at its buffered index restores the
original list, and the buffered index never exceeds the shrunken length. -/
lemma spliceOut_restores :
    ∀ (l : List ThoughtItem) (key : String) (it : ThoughtItem) (k : Nat)
      (ys : List ThoughtItem), spliceOutById key l = some (it, k, ys) →
      k ≤ ys.length ∧ insertAt k it ys = l := by
  intro l
  induction l with
  | nil => intro key it k ys h; simp [spliceOutById] at h
  | cons x xs ih =>
    intro key it k ys h
    unfold spliceOutById at h
    by_cases hx : (x.id == key) = true
    · rw [if_pos hx] at h
      cases h
      exact ⟨Nat.zero_le _, rfl⟩
    · rw [if_neg hx] at h
      cases hs : spliceOutById key xs with
      | none =>
        rw [hs] at h
        cases h
      | some p =>
        obtain ⟨it2, k2, ys2⟩ := p
        rw [hs] at h
        cases h
        obtain ⟨hk2, hins⟩ := ih key _ _ _ hs
        exact ⟨Nat.succ_le_succ hk2, congrArg (List.cons x) hins⟩

/-- Deleting the id of the item at an in-range index always succeeds
(even when ids duplicate, the first occurrence of that id is spliced). -/
lemma spliceOut_get_isSome :
    ∀ (l : List ThoughtItem) (i : Nat) (h : i < l.length),
      (spliceOutById (l.get ⟨i, h⟩).id l).isSome = true := by
  intro l
  induction l with
  | nil => intro i h; simp at h
  | cons x xs ih =>
    intro i h
    cases i with
    | zero =>
      unfold spliceOutById
      simp
    | succ j =>
      have hj : j < xs.length := Nat.lt_of_succ_lt_succ h
      have hget : (x :: xs).get ⟨j + 1, h⟩ = xs.get ⟨j, hj⟩ := rfl
      rw [hget]
      unfold spliceOutById
      by_cases hx : (x.id == (xs.get ⟨j, hj⟩).id) = true
      · rw [if_pos hx]
        rfl
      · rw [if_neg hx]
        have hsome := ih j hj
        cases hs : spliceOutById (xs.get ⟨j, hj⟩).id xs with
        | none => rw [hs] at hsome; simp at hsome
        | some p =>
          obtain ⟨it2, k2, ys2⟩ := p
          rfl

/-- C5: deleting the item at index `i` (via its id, as `onDelete` does)
and then immediately restoring reproduces the original collection exactly
(and clears the buffer); restore reinserts the buffered item at
`min(bufferedIndex, currentLength)`; and restore on an empty buffer
leaves the state unchanged. -/
theorem undo_restores :
    (∀ (l : List ThoughtItem) (u0 : Option (ThoughtItem × Nat)) (i : Nat)
       (h : i < l.length),
       undoDelete (onDelete (l.get ⟨i, h⟩).id ⟨l, u0⟩) = ⟨l, none⟩) ∧
    (∀ (l : List ThoughtItem) (it : ThoughtItem) (k : Nat),
       undoDelete ⟨l, some (it, k)⟩ = ⟨insertAt (min k l.length) it l, none⟩) ∧
    (∀ l : List ThoughtItem, undoDelete ⟨l, none⟩ = ⟨l, none⟩) := by
  refine ⟨?_, fun _ _ _ => rfl, fun _ => rfl⟩
  intro l u0 i h
  have hsome := spliceOut_get_isSome l i h
  cases hs : spliceOutById (l.get ⟨i, h⟩).id l with
  | none => rw [hs] at hsome; simp at hsome
  | some p =>
    obtain ⟨it, k, ys⟩ := p
    obtain ⟨hk, hins⟩ := spliceOut_restores l _ it k ys hs
    show undoDelete (match spliceOutById (l.get ⟨i, h⟩).id l with
      | none => (⟨l, u0⟩ : UndoState)
      | some (it, k, ys) => ⟨ys, some (it, k)⟩) = ⟨l, none⟩
    rw [hs]
    show (⟨insertAt (min k ys.length) it ys, none⟩ : UndoState) = ⟨l, none⟩
    rw [Nat.min_eq_left hk, hins]

/-- C5 witness: delete `"b"` (index 1) from a three-item collection and
restore it. -/
theorem undo_restores_witness :
    1 < ([⟨"a", "1"⟩, ⟨"b", "2"⟩, ⟨"c", "3"⟩] : List ThoughtItem).length ∧
    undoDelete (onDelete "b" ⟨[⟨"a", "1"⟩, ⟨"b", "2"⟩, ⟨"c", "3"⟩], none⟩)
      = ⟨[⟨"a", "1"⟩, ⟨"b", "2"⟩, ⟨"c", "3"⟩], none⟩ := by
  refine ⟨by decide, ?_⟩
  exact undo_restores.1 [⟨"a", "1"⟩, ⟨"b", "2"⟩, ⟨"c", "3"⟩] none 1 (by decide)

/-! ## C6: save / load round-trip -/

/-- Every encoded item passes the shape filter. -/
lemma encode_valid (it : ThoughtItem) : isValidItem (encodeItem it) = true := rfl

/-- Decoding inverts encoding. -/
lemma extract_encode (it : ThoughtItem) : extractItem (encodeItem it) = it := rfl

/-- The sanitizer is the identity on encoded item lists. -/
lemma roundtrip_items :
    ∀ items : List ThoughtItem,
      ((items.map encodeItem).filter isValidItem).map extractItem = items := by
  intro items
  induction items with
  | nil => rfl
  | cons x xs ih =>
    rw [List.map_cons, List.filter_cons_of_pos (by rw [encode_valid]), List.map_cons,
      extract_encode, ih]

/-- C6: saving any in-memory state (whose items, by typing, all carry
string ids and texts) and loading it back yields the state unchanged:
every item passes shape validation, so nothing is dropped. -/
theorem save_load_roundtrip (s : AppState) (st : Store) :
    loadInitialState (saveState s st) = s := by
  show AppState.mk
      (match (encodeState s).getField "draft" with | some (.jstr d) => d | _ => "")
      (match (encodeState s).getField "items" with
        | some (.jarr xs) => (xs.filter isValidItem).map extractItem
        | _ => []) = s
  have hd : (encodeState s).getField "draft" = some (.jstr s.draft) := rfl
  have hi : (encodeState s).getField "items" = some (.jarr (s.items.map encodeItem)) := by
    show lookupField [("draft", .jstr s.draft), ("items", .jarr (s.items.map encodeItem))]
        "items" = _
    rfl
  rw [hd, hi]
  simp only [roundtrip_items]

/-! ## C7: load never fails and drops exactly the invalid items -/

/-- The decoder `decodeItem` succeeds exactly on shape-valid items and returns the
extracted fields. -/
lemma decode_eq (j : JValue) :
    decodeItem j = if isValidItem j then some (extractItem j) else none := by
  cases j with
  | jobj fs =>
    rcases h1 : lookupField fs "id" with _ | v1
    · rcases h2 : lookupField fs "text" with _ | v2
      · simp [decodeItem, isValidItem, extractItem, h1, h2]
      · cases v2 <;> simp [decodeItem, isValidItem, extractItem, h1, h2]
    · rcases h2 : lookupField fs "text" with _ | v2
      · cases v1 <;> simp [decodeItem, isValidItem, extractItem, h1, h2]
      · cases v1 <;> cases v2 <;> simp [decodeItem, isValidItem, extractItem, h1, h2]
  | jnull => rfl
  | jbool b => rfl
  | jnum n => rfl
  | jstr s => rfl
  | jarr xs => rfl

/-- The filter-then-extract pipeline of the source equals the per-item decoder. -/
lemma items_filterMap :
    ∀ xs : List JValue, (xs.filter isValidItem).map extractItem = xs.filterMap decodeItem := by
  intro xs
  induction xs with
  | nil => rfl
  | cons j js ih =>
    rw [List.filter_cons, List.filterMap_cons, decode_eq j]
    cases h : isValidItem j <;> simp [h, ih]

/-- C7: `load` is total and never fails: an absent key or unparseable
blob yields `{draft := "", items := []}`; on a parsed blob exactly the
shape-invalid items are dropped (the rest kept in order, as the
`filterMap` of the per-item decoder), and a non-string `draft` becomes `""`. -/
theorem load_recovers_and_filters :
    (∀ leg : Option String, loadInitialState ⟨none, leg⟩ = ⟨"", []⟩) ∧
    (∀ (j : JValue) (leg : Option String) (xs : List JValue),
       j.getField "items" = some (JValue.jarr xs) →
       (loadInitialState ⟨some j, leg⟩).items = xs.filterMap decodeItem) ∧
    (∀ (j : JValue) (leg : Option String),
       (∀ s, j.getField "draft" ≠ some (JValue.jstr s)) →
       (loadInitialState ⟨some j, leg⟩).draft = "") := by
  refine ⟨fun _ => rfl, ?_, ?_⟩
  · intro j leg xs hx
    show (loadParsed j).items = _
    unfold loadParsed
    rw [hx]
    simp only [items_filterMap]
  · intro j leg hd
    show (loadParsed j).draft = ""
    unfold loadParsed
    rcases h : j.getField "draft" with _ | v
    · rfl
    · cases v with
      | jstr s => exact absurd h (hd s)
      | jnull => rfl
      | jbool b => rfl
      | jnum n => rfl
      | jarr xs => rfl
      | jobj fs => rfl

/-- C7 witness: a blob whose `items` array holds one valid and one
invalid entry, and whose `draft` is a number. -/
theorem load_recovers_and_filters_witness :
    ((JValue.jobj [("draft", JValue.jnum 3),
        ("items", JValue.jarr [encodeItem ⟨"i", "t"⟩, JValue.jstr "junk"])]).getField "items"
      = some (JValue.jarr [encodeItem ⟨"i", "t"⟩, JValue.jstr "junk"])) ∧
    (loadInitialState ⟨some (JValue.jobj [("draft", JValue.jnum 3),
        ("items", JValue.jarr [encodeItem ⟨"i", "t"⟩, JValue.jstr "junk"])]), none⟩).items
      = [encodeItem ⟨"i", "t"⟩, JValue.jstr "junk"].filterMap decodeItem ∧
    (loadInitialState ⟨some (JValue.jobj [("draft", JValue.jnum 3),
        ("items", JValue.jarr [encodeItem ⟨"i", "t"⟩, JValue.jstr "junk"])]), none⟩).draft
      = "" := by
  refine ⟨rfl, load_recovers_and_filters.2.1 _ none _ rfl,
    load_recovers_and_filters.2.2 _ none ?_⟩
  intro s h
  exact Option.noConfusion h (fun h2 => JValue.noConfusion h2)

/-! ## C8: legacy migration is absent -/

/-- C8 counterexample: with no current blob and the legacy key holding
`"a\na\nb"`, `load` returns the empty state — no items are migrated (and
nothing is read from or removed under the legacy key: `loadInitialState`
never touches it). -/
theorem load_no_migration :
    loadInitialState ⟨none, some "a\na\nb"⟩ = ⟨"", []⟩ ∧
    (loadInitialState ⟨none, some "a\na\nb"⟩).items.length ≠ 2 := by
  exact ⟨rfl, by decide⟩

/-- C8 amended: when no current-version blob exists, `load` returns the
empty state regardless of the legacy key, which is neither read, migrated
nor removed (the legacy-key constant only appears commented out). -/
theorem load_ignores_legacy (leg : Option String) :
    loadInitialState ⟨none, leg⟩ = ⟨"", []⟩ := rfl

/-! ## C9: clearAll -/

/-- C9 counterexample: `resetAll` leaves the legacy key in place, so the
part of the claim removing "the legacy persisted key" fails. -/
theorem resetAll_keeps_legacy :
    (resetAll ⟨some (JValue.jstr "blob"), some "legacy"⟩).2.legacy = some "legacy" ∧
    (some "legacy" : Option String) ≠ none := by
  exact ⟨rfl, by decide⟩

/-- C9 amended: `resetAll` empties the draft and the collection and
removes the current persisted key; the legacy key is left untouched. -/
theorem resetAll_spec (st : Store) :
    (resetAll st).1 = ⟨"", []⟩ ∧ (resetAll st).2.current = none ∧
      (resetAll st).2.legacy = st.legacy :=
  ⟨rfl, rfl, rfl⟩

/-! ## C10: load does not re-establish id uniqueness -/

/-- C10: `load` checks only per-item shape, never id uniqueness: on
`dupBlob` it returns both items, and the resulting ids are not pairwise
distinct. -/
theorem load_keeps_duplicate_ids :
    (loadInitialState ⟨some dupBlob, none⟩).items = [⟨"x", "a"⟩, ⟨"x", "b"⟩] ∧
    ¬ (((loadInitialState ⟨some dupBlob, none⟩).items.map ThoughtItem.id).Nodup) := by
  exact ⟨rfl, by decide⟩

/-! ## C1: ids stay pairwise unique under add / reorder / delete -/

/-- The function `insertAt` produces a permutation of consing the element. -/
lemma insertAt_perm {α : Type} :
    ∀ (l : List α) (n : Nat) (a : α), List.Perm (insertAt n a l) (a :: l) := by
  intro l
  induction l with
  | nil => intro n a; cases n <;> exact List.Perm.refl _
  | cons x xs ih =>
    intro n a
    cases n with
    | zero => exact List.Perm.refl _
    | succ m =>
      exact List.Perm.trans (List.Perm.cons x (ih m a)) (List.Perm.swap a x xs)

/-- A successful `removeAt` splits the list into the removed element and
the rest, up to permutation. -/
lemma removeAt_some_perm {α : Type} :
    ∀ (l : List α) (n : Nat) (x : α) (ys : List α),
      removeAt n l = (some x, ys) → List.Perm l (x :: ys) := by
  intro l
  induction l with
  | nil => intro n x ys h; cases n <;> simp [removeAt] at h
  | cons z zs ih =>
    intro n x ys h
    cases n with
    | zero =>
      unfold removeAt at h
      cases h
      exact List.Perm.refl _
    | succ m =>
      unfold removeAt at h
      rcases hp : removeAt m zs with ⟨r, ws⟩
      rw [hp] at h
      cases h
      exact List.Perm.trans (List.Perm.cons z (ih m x ws hp)) (List.Perm.swap x z ws)

/-- The function `arrayMove` permutes the collection. -/
lemma arrayMove_perm {α : Type} (l : List α) (s d : Nat) :
    List.Perm (arrayMove l s d) l := by
  unfold arrayMove
  rcases hp : removeAt s l with ⟨r, ys⟩
  cases r with
  | none => exact List.Perm.refl _
  | some x =>
    exact List.Perm.trans (insertAt_perm ys d x) (removeAt_some_perm l s x ys hp).symm

/-- The function `onDragEnd` permutes the collection. -/
lemma onDragEnd_perm (a b : String) (l : List ThoughtItem) :
    List.Perm (onDragEnd a b l) l := by
  unfold onDragEnd
  by_cases h : (a == b) = true
  · rw [if_pos h]
  · rw [if_neg h]
    exact arrayMove_perm l _ _

/-- The remainder of a successful splice is a sublist. -/
lemma spliceOut_sublist :
    ∀ (l : List ThoughtItem) (key : String) (it : ThoughtItem) (k : Nat)
      (ys : List ThoughtItem), spliceOutById key l = some (it, k, ys) →
      List.Sublist ys l := by
  intro l
  induction l with
  | nil => intro key it k ys h; simp [spliceOutById] at h
  | cons x xs ih =>
    intro key it k ys h
    unfold spliceOutById at h
    by_cases hx : (x.id == key) = true
    · rw [if_pos hx] at h
      cases h
      exact List.sublist_cons_self x xs
    · rw [if_neg hx] at h
      cases hs : spliceOutById key xs with
      | none =>
        rw [hs] at h
        cases h
      | some p =>
        obtain ⟨it2, k2, ys2⟩ := p
        rw [hs] at h
        cases h
        exact List.Sublist.cons₂ x (ih key _ _ _ hs)

/-- Every item minted by `freshItems` carries an id from the supply
segment `[n, n + |parts|)`. -/
lemma freshItems_mem (gen : Nat → String) :
    ∀ (ts : List String) (n : Nat) (it : ThoughtItem), it ∈ freshItems gen n ts →
      ∃ k, n ≤ k ∧ k < n + ts.length ∧ it.id = gen k := by
  intro ts
  induction ts with
  | nil => intro n it h; simp [freshItems] at h
  | cons t ts ih =>
    intro n it h
    unfold freshItems at h
    rcases List.mem_cons.mp h with h1 | h2
    · refine ⟨n, Nat.le_refl n, ?_, by rw [h1]⟩
      simp only [List.length_cons]
      omega
    · obtain ⟨k, hk1, hk2, hk3⟩ := ih (n + 1) it h2
      refine ⟨k, by omega, ?_, hk3⟩
      simp only [List.length_cons]
      omega

/-- With an injective supply, freshly minted ids are pairwise distinct. -/
lemma freshItems_nodup (gen : Nat → String) (hg : Function.Injective gen) :
    ∀ (ts : List String) (n : Nat), ((freshItems gen n ts).map ThoughtItem.id).Nodup := by
  intro ts
  induction ts with
  | nil => intro n; simp [freshItems]
  | cons t ts ih =>
    intro n
    unfold freshItems
    rw [List.map_cons, List.nodup_cons]
    refine ⟨?_, ih (n + 1)⟩
    intro hmem
    rw [List.mem_map] at hmem
    obtain ⟨it, hit, hid⟩ := hmem
    obtain ⟨k, hk1, _, hk3⟩ := freshItems_mem gen ts (n + 1) it hit
    have : n = k := hg (hid.symm.trans hk3)
    omega

/-- The invariant carried through the operations: ids are pairwise
distinct, and every id was minted from a supply index below the
counter. -/
def goodState (gen : Nat → String) (st : ItemsState) : Prop :=
  ((st.items.map ThoughtItem.id).Nodup) ∧
    ∀ it ∈ st.items, ∃ k, k < st.next ∧ it.id = gen k

/-- Each operation preserves the invariant. -/
lemma applyOp_good (gen : Nat → String) (hg : Function.Injective gen)
    (st : ItemsState) (op : Op) (hst : goodState gen st) :
    goodState gen (applyOp gen st op) := by
  obtain ⟨hnd, hbound⟩ := hst
  cases op with
  | add draft =>
    show goodState gen (commitDraft gen draft st)
    unfold commitDraft
    by_cases hv : (trimStr draft).length = 0
    · rw [if_pos hv]; exact ⟨hnd, hbound⟩
    · rw [if_neg hv]
      constructor
      · rw [List.map_append, List.nodup_append]
        refine ⟨hnd, freshItems_nodup gen hg _ _, ?_⟩
        intro a ha hb
        rw [List.mem_map] at ha hb
        obtain ⟨it1, hit1, hid1⟩ := ha
        obtain ⟨it2, hit2, hid2⟩ := hb
        obtain ⟨k1, hk1, hk1e⟩ := hbound it1 hit1
        obtain ⟨k2, hk2a, _, hk2e⟩ := freshItems_mem gen _ _ it2 hit2
        have : k1 = k2 := hg (by rw [← hk1e, ← hk2e, hid1, hid2])
        omega
      · intro it hit
        rcases List.mem_append.mp hit with h1 | h2
        · obtain ⟨k, hk, hke⟩ := hbound it h1
          exact ⟨k, by simp; omega, hke⟩
        · obtain ⟨k, _, hk2, hke⟩ := freshItems_mem gen _ _ it h2
          exact ⟨k, by simpa using hk2, hke⟩
  | reorder a b =>
    have hperm : List.Perm (onDragEnd a b st.items) st.items := onDragEnd_perm a b st.items
    constructor
    · exact ((hperm.map ThoughtItem.id).symm).nodup hnd
    · intro it hit
      exact hbound it (hperm.mem_iff.mp hit)
  | delete key =>
    show goodState gen (match spliceOutById key st.items with
      | none => st
      | some (_, _, ys) => { st with items := ys })
    rcases hs : spliceOutById key st.items with _ | ⟨it, k, ys⟩
    · exact ⟨hnd, hbound⟩
    · have hsub : List.Sublist ys st.items := spliceOut_sublist st.items key it k ys hs
      exact ⟨(hsub.map ThoughtItem.id).nodup hnd,
        fun x hx => hbound x (hsub.subset hx)⟩

/-- Running any sequence of operations preserves the invariant. -/
lemma runOps_good (gen : Nat → String) (hg : Function.Injective gen) :
    ∀ (ops : List Op) (st : ItemsState), goodState gen st →
      goodState gen (runOps gen st ops) := by
  intro ops
  induction ops with
  | nil => intro st h; exact h
  | cons op ops ih =>
    intro st h
    exact ih (applyOp gen st op) (applyOp_good gen hg st op h)

/-- C1: starting from the empty collection, for every sequence of
add / reorder / delete operations, if the id supply never repeats a
value then the ids in the resulting collection are pairwise unique (and
hence after every step, each prefix being such a sequence). -/
theorem ids_unique (gen : Nat → String) (hg : Function.Injective gen) (ops : List Op) :
    ((runOps gen ⟨[], 0⟩ ops).items.map ThoughtItem.id).Nodup :=
  (runOps_good gen hg ops ⟨[], 0⟩ ⟨List.nodup_nil, fun it hit => absurd hit (List.not_mem_nil it)⟩).1

/-- The sample supply is injective: distinct indices give distinct ids. -/
lemma genA_inj : Function.Injective genA := by
  intro a b h
  have h2 := congrArg (fun s => s.data.length) h
  simpa [genA] using h2

/-- C1 witness: a concrete three-operation run under the injective
sample supply. -/
theorem ids_unique_witness :
    Function.Injective genA ∧
    ((runOps genA ⟨[], 0⟩ [Op.add "x\ny", Op.reorder "" "a", Op.delete "a"]).items.map
      ThoughtItem.id).Nodup :=
  ⟨genA_inj, ids_unique genA genA_inj [Op.add "x\ny", Op.reorder "" "a", Op.delete "a"]⟩

end Seihai
